import Mathlib

/-!
Verification of the Abogado-Parser binary container codecs.

This development shallowly embeds the three codecs of the repository:
* the index-table codec (`PFTParser.read` in `sdk_tools.py`), here `pftRead`;
* the block-archive codec (`SDKArchive.unpack` / `SDKArchive.repack` in
  `sdk_tools.py`), here `unpack` / `repack`;
* the segmented-text unit codec (`SCFParserV2.parse` / `SCFParserV2.rebuild`
  in `scf_parser_v2.py`), here `parse` / `rebuild`.

Byte strings are modelled as `List Nat`.  The text codec is parametrized by
an `Encoding` (mirroring the `encoding` constructor parameter of
`SCFParserV2`, whose default is the external `shift_jis` codec).  File
systems are modelled as association lists of writes (`fsLookup`) or as
lookup functions `String -> Option (List Nat)`.
-/

set_option maxHeartbeats 1000000
set_option maxRecDepth 8000

namespace Abogado

/-- An entry of the scene index table: `(name, index, size)` in
`PFTParser.read`. -/
structure Entry where
  name : String
  blockIndex : Nat
  byteSize : Nat
deriving DecidableEq

/-- An injectable byte-string codec, mirroring the `encoding` parameter of
`SCFParserV2.__init__` (default `shift_jis`): `decode` models
`bytes.decode(encoding, errors='ignore')` (total, undecodable bytes are
dropped), `encode` models `str.encode(encoding)` (`none` models a raised
`UnicodeEncodeError`). -/
structure Encoding where
  decode : List Nat → List Char
  encode : List Char → Option (List Nat)

/-- One recorded text segment of `SCFParserV2.parse`: the dict
`{'offset': start, 'length': len(segment), 'original': list(segment),
'text': decoded}`. -/
structure TextSegment where
  offset : Nat
  length : Nat
  original : List Nat
  text : List Char
deriving DecidableEq

/-- The dict returned by `SCFParserV2.parse`:
`{'original_data': list(data), 'size': len(data), 'text_segments': ...}`
(the redundant `'encoding'` field is the codec parameter itself). -/
structure SCFContainer where
  original_data : List Nat
  size : Nat
  text_segments : List TextSegment
deriving DecidableEq

/-- `SDKArchive.BLOCK_SIZE = 2048` (0x800). -/
def BLOCK_SIZE : Nat := 2048

/-- Python slicing `data[off : off + len]` (clamped at the end of the
buffer). -/
def byteSlice (data : List Nat) (off len : Nat) : List Nat :=
  (data.drop off).take len

/-- Python `bytearray` slice assignment `buf[off : off + d.length] = d`
for `off ≤ buf.length` (the form used by `SDKArchive.repack`): the slice is
replaced by `d`; when `off + d.length` exceeds the buffer the buffer
grows. -/
def writeAt (buf : List Nat) (off : Nat) (d : List Nat) : List Nat :=
  buf.take off ++ d ++ buf.drop (off + d.length)

/-- The `del data[off:off+len]` followed by inserting `new` at `off`
performed by `SCFParserV2.rebuild` on one segment. -/
def splice (buf : List Nat) (off len : Nat) (new : List Nat) : List Nat :=
  buf.take off ++ new ++ buf.drop (off + len)

/-! ### IndexTable codec (`PFTParser` in `sdk_tools.py`) -/

/-- `bytes.decode('ascii', errors='ignore')`: bytes below 0x80 become the
corresponding character, others are dropped. -/
def decodeAscii (bs : List Nat) : List Char :=
  (bs.filter (fun b => b < 128)).map (fun b => Char.ofNat b)

/-- Python `str.rstrip('\x00')`: drop trailing NUL characters. -/
def rstripNull (cs : List Char) : List Char :=
  (cs.reverse.dropWhile (fun c => c == Char.ofNat 0)).reverse

/-- The name field of one index record:
`name_bytes.decode('ascii', errors='ignore').rstrip('\x00')`. -/
def pftName (bs : List Nat) : String :=
  String.mk (rstripNull (decodeAscii bs))

/-- `struct.unpack('<I', bs)` on a 4-byte little-endian field. -/
def u32le (bs : List Nat) : Nat :=
  match bs with
  | [b0, b1, b2, b3] => b0 + 256 * b1 + 65536 * b2 + 16777216 * b3
  | _ => 0

/-- The entry-scanning loop of `PFTParser.read`: 16-byte records
`(name[8], index u32le, size u32le)` until fewer than 16 bytes remain or a
record's name decodes to the empty string. -/
def pftEntriesGo : Nat → List Nat → List (String × Nat × Nat)
  | 0, _ => []
  | fuel + 1, rest =>
    if rest.length < 16 then []
    else
      let name := pftName (rest.take 8)
      if name = "" then []
      else (name, u32le (byteSlice rest 8 4), u32le (byteSlice rest 12 4)) ::
        pftEntriesGo fuel (rest.drop 16)

/-- `PFTParser.read`: retain the first 16 bytes as the header, then scan the
entry records.  `none` models the `struct.error` raised by
`struct.unpack('<IIHH4x', data[0:16])` on an input shorter than 16 bytes
(the spec's `FormatError`, fatal to the read call). -/
def pftRead (data : List Nat) : Option (List Nat × List (String × Nat × Nat)) :=
  if data.length < 16 then none
  else some (data.take 16, pftEntriesGo data.length (data.drop 16))

/-! ### BlockArchive codec (`SDKArchive` in `sdk_tools.py`) -/

/-- The extraction loop of `SDKArchive.unpack`: for each entry,
`offset = idx * BLOCK_SIZE`; if `offset + size <= len(archive_data)` write
`archive_data[offset:offset+size]` as the unit file named after the entry,
otherwise report the entry as out of range and continue.  Returns the file
writes in order and the list of failed entries. -/
def unpackGo (archive : List Nat) : List Entry → List (String × List Nat) × List Entry
  | [] => ([], [])
  | e :: rest =>
    let r := unpackGo archive rest
    if e.blockIndex * BLOCK_SIZE + e.byteSize ≤ archive.length then
      ((e.name, byteSlice archive (e.blockIndex * BLOCK_SIZE) e.byteSize) :: r.1, r.2)
    else
      (r.1, e :: r.2)

/-- `SDKArchive.unpack` over an already-read archive and entry list. -/
def unpack (archive : List Nat) (entries : List Entry) :
    List (String × List Nat) × List Entry :=
  unpackGo archive entries

/-- The file-system state after a sequence of named writes: the last write
to a name wins (models `unpack` writing `{name}.SCF` files into the output
directory). -/
def fsLookup : List (String × List Nat) → String → Option (List Nat)
  | [], _ => none
  | w :: ws, n =>
    match fsLookup ws n with
    | some d => some d
    | none => if w.1 = n then some w.2 else none

/-- `max(idx for _, idx, _ in original_entries)` for a non-empty entry
list (on the empty list Python raises `ValueError`; callers guard with
`repack`'s `none`). -/
def maxIdx (entries : List Entry) : Nat :=
  entries.foldl (fun m e => max m e.blockIndex) 0

/-- One iteration of the `SDKArchive.repack` loop: look up the unit file by
name; if absent, warn and skip; otherwise assign
`archive_data[offset:offset+len(d)] = d` at `offset = idx * BLOCK_SIZE`. -/
def repackStep (files : String → Option (List Nat)) (buf : List Nat) (e : Entry) :
    List Nat :=
  match files e.name with
  | none => buf
  | some d => writeAt buf (e.blockIndex * BLOCK_SIZE) d

/-- `SDKArchive.repack`: allocate
`bytearray((max(blockIndex) + 1) * BLOCK_SIZE)` (zero-filled) and write each
present unit file at its entry's block offset, in the original entry order.
`none` models the `ValueError` raised by `max()` on an empty entry list. -/
def repack (entries : List Entry) (files : String → Option (List Nat)) :
    Option (List Nat) :=
  if entries.isEmpty then none
  else some (entries.foldl (repackStep files)
    (List.replicate ((maxIdx entries + 1) * BLOCK_SIZE) 0))

/-! ### SegmentedTextContainer codec (`SCFParserV2` in `scf_parser_v2.py`) -/

/-- The classification test of `SCFParserV2.parse`:
`any('぀' <= c <= 'ヿ' or '一' <= c <= '鿿' for c in decoded)`. -/
def hasJapanese (cs : List Char) : Bool :=
  cs.any (fun c =>
    (0x3040 ≤ c.toNat && c.toNat ≤ 0x30ff) || (0x4e00 ≤ c.toNat && c.toNat ≤ 0x9fff))

/-- One iteration's segment in `SCFParserV2.parse`: the accumulated run of
non-null bytes, plus the null terminator when one follows the run. -/
def segOf (rest : List Nat) : List Nat :=
  let run := rest.takeWhile (fun b => b != 0)
  if run.length < rest.length then run ++ [0] else run

/-- The scanning loop of `SCFParserV2.parse`: accumulate a run of non-null
bytes; if a null byte follows, include it in the segment; record the
segment when it is longer than one byte and its decoded content (the run
without its last byte) contains a character in the Japanese ranges.  `fuel`
bounds the recursion; any `fuel ≥ rest.length` yields the loop's result
because every iteration consumes at least one byte. -/
def scanGo (enc : Encoding) : Nat → Nat → List Nat → List TextSegment
  | 0, _, _ => []
  | fuel + 1, off, rest =>
    if rest.length = 0 then []
    else
      let seg := segOf rest
      if 1 < seg.length ∧ hasJapanese (enc.decode seg.dropLast) = true then
        { offset := off, length := seg.length, original := seg,
          text := enc.decode seg.dropLast } ::
          scanGo enc fuel (off + seg.length) (rest.drop seg.length)
      else scanGo enc fuel (off + seg.length) (rest.drop seg.length)

/-- `SCFParserV2.parse` on the bytes of one unit file. -/
def parse (enc : Encoding) (data : List Nat) : SCFContainer :=
  { original_data := data, size := data.length,
    text_segments := scanGo enc data.length 0 data }

/-- `SCFParserV2.extract_texts`. -/
def extractTexts (c : SCFContainer) : List (List Char) :=
  c.text_segments.map TextSegment.text

/-- One iteration of the replacement loop of `SCFParserV2.rebuild`: encode
the replacement plus a null terminator and splice it over the segment's
original span; if encoding raises, keep the buffer unchanged and warn. -/
def rebuildStep (enc : Encoding) (p : TextSegment × List Char) (buf : List Nat) :
    List Nat :=
  match enc.encode p.2 with
  | some bs => splice buf p.1.offset p.1.length (bs ++ [0])
  | none => buf

/-- `SCFParserV2.rebuild`: with a falsy `new_texts` (`None` or the empty
list) return the original snapshot; otherwise warn on a count mismatch and
process the paired segments in reverse index order (the `foldr` applies the
highest-index pair first, matching the `range(min(...) - 1, -1, -1)`
loop).  The boolean is the count-mismatch warning. -/
def rebuild (enc : Encoding) (c : SCFContainer) (newTexts : Option (List (List Char))) :
    List Nat × Bool :=
  match newTexts with
  | none => (c.original_data, false)
  | some [] => (c.original_data, false)
  | some ts =>
    (List.foldr (rebuildStep enc) c.original_data (c.text_segments.zip ts),
      decide (ts.length ≠ c.text_segments.length))

/-! ### Concrete instances used by closed theorems -/

/-- Modelled from the spec: the fixed legacy double-byte charset table
(the external `shift_jis` codec named by the spec, whose table is not part
of this repository), restricted to the byte sequences appearing in the
concrete instances below: bytes below 0x80 decode to the corresponding
ASCII character, the double-byte sequence `0x82 0xA0` decodes to U+3042
(HIRAGANA LETTER A, exactly as in Shift-JIS), and any other byte is
dropped (`errors='ignore'`). -/
def sjisDecode : List Nat → List Char
  | [] => []
  | 0x82 :: 0xA0 :: rest => Char.ofNat 0x3042 :: sjisDecode rest
  | b :: rest => if b < 0x80 then Char.ofNat b :: sjisDecode rest else sjisDecode rest

/-- Modelled from the spec: the encoder of the same restricted legacy
charset fragment; U+3042 encodes to `0x82 0xA0`, ASCII characters encode
to their byte, anything else raises (`none`). -/
def sjisEncode : List Char → Option (List Nat)
  | [] => some []
  | c :: rest =>
    match sjisEncode rest with
    | none => none
    | some bs =>
      if c.toNat = 0x3042 then some (0x82 :: 0xA0 :: bs)
      else if c.toNat < 0x80 then some (c.toNat :: bs)
      else none

/-- The restricted legacy charset as an `Encoding`. -/
def sjisEnc : Encoding := { decode := sjisDecode, encode := sjisEncode }

/-! ### Specification-side predicates -/

/-- A maximal run of non-null bytes terminated by one null byte, the
terminator counted in `len`: positions `off .. off+len-2` are non-null,
position `off+len-1` is the null terminator, and the run cannot be
extended to the left. -/
def IsMaxRun (data : List Nat) (off len : Nat) : Prop :=
  1 ≤ len ∧ off + len ≤ data.length ∧
  (∀ k, k < len - 1 → data.getD (off + k) 0 ≠ 0) ∧
  data.getD (off + len - 1) 0 = 0 ∧
  (off = 0 ∨ data.getD (off - 1) 0 = 0)

instance (data : List Nat) (off len : Nat) : Decidable (IsMaxRun data off len) := by
  unfold IsMaxRun
  exact inferInstance

/-- The container invariant: segments lie in ascending offset order, do not
overlap, and stay within the snapshot's bounds. -/
def segsChained (data : List Nat) : Nat → List TextSegment → Bool
  | _, [] => true
  | pos, s :: rest =>
    decide (pos ≤ s.offset) && decide (s.offset + s.length ≤ data.length) &&
      segsChained data (s.offset + s.length) rest

/-- The replacement result described by the spec for `rebuild`: between
position `pos` and the end of the snapshot, each paired segment's span is
replaced by its encoded replacement text plus a null terminator (or kept
verbatim when the text cannot be encoded), and all bytes between and after
the paired segments are kept verbatim. -/
def spliceSpec (enc : Encoding) (data : List Nat) :
    Nat → List (TextSegment × List Char) → List Nat
  | pos, [] => data.drop pos
  | pos, (s, t) :: rest =>
    byteSlice data pos (s.offset - pos) ++
      (match enc.encode t with
       | some bs => bs ++ [0]
       | none => byteSlice data s.offset s.length) ++
      spliceSpec enc data (s.offset + s.length) rest

/-! ### List helper lemmas -/

theorem getD_append (a b : List Nat) (p : Nat) :
    (a ++ b).getD p 0 = if p < a.length then a.getD p 0 else b.getD (p - a.length) 0 := by
  induction a generalizing p with
  | nil => simp
  | cons x xs ih =>
    cases p with
    | zero => simp
    | succ p =>
      simp only [List.cons_append, List.getD_cons_succ, List.length_cons,
        Nat.succ_sub_succ, Nat.add_lt_add_iff_right, ih p]

theorem getD_drop (l : List Nat) (n p : Nat) : (l.drop n).getD p 0 = l.getD (n + p) 0 := by
  induction l generalizing n with
  | nil => simp
  | cons x xs ih =>
    cases n with
    | zero => simp
    | succ n =>
      simpa only [List.drop_succ_cons, Nat.succ_add, List.getD_cons_succ] using ih n

theorem getD_take (l : List Nat) (n p : Nat) :
    (l.take n).getD p 0 = if p < n then l.getD p 0 else 0 := by
  induction l generalizing n p with
  | nil => simp
  | cons x xs ih =>
    cases n with
    | zero => simp
    | succ n =>
      cases p with
      | zero => simp
      | succ p =>
        simp only [List.take_succ_cons, List.getD_cons_succ, Nat.add_lt_add_iff_right, ih n p]

theorem replicate_getD_zero (n p : Nat) : (List.replicate n (0 : Nat)).getD p 0 = 0 := by
  induction n generalizing p with
  | zero => simp
  | succ n ih =>
    cases p with
    | zero => simp [List.replicate_succ]
    | succ p => simp [List.replicate_succ, ih p]

theorem takeWhile_length_le (q : Nat → Bool) (l : List Nat) :
    (l.takeWhile q).length ≤ l.length := by
  induction l with
  | nil => simp
  | cons x xs ih =>
    by_cases hx : q x
    · simpa [List.takeWhile_cons_of_pos hx] using ih
    · simp [List.takeWhile_cons_of_neg hx]

theorem takeWhile_getD_true (q : Nat → Bool) (l : List Nat) (k : Nat)
    (h : k < (l.takeWhile q).length) : q (l.getD k 0) = true := by
  induction l generalizing k with
  | nil => simp at h
  | cons x xs ih =>
    by_cases hx : q x
    · cases k with
      | zero => simpa using hx
      | succ k =>
        rw [List.takeWhile_cons_of_pos hx] at h
        simp only [List.length_cons, Nat.add_lt_add_iff_right] at h
        simpa using ih k h
    · rw [List.takeWhile_cons_of_neg hx] at h
      simp at h

theorem takeWhile_getD_false (q : Nat → Bool) (l : List Nat)
    (h : (l.takeWhile q).length < l.length) :
    q (l.getD (l.takeWhile q).length 0) = false := by
  induction l with
  | nil => simp at h
  | cons x xs ih =>
    by_cases hx : q x
    · rw [List.takeWhile_cons_of_pos hx] at h ⊢
      simp only [List.length_cons, Nat.add_lt_add_iff_right] at h
      simpa using ih h
    · rw [List.takeWhile_cons_of_neg hx]
      simpa using hx

theorem takeWhile_eq_take (q : Nat → Bool) (l : List Nat) :
    l.takeWhile q = l.take (l.takeWhile q).length := by
  induction l with
  | nil => simp
  | cons x xs ih =>
    by_cases hx : q x
    · rw [List.takeWhile_cons_of_pos hx]
      simpa using ih
    · simp [List.takeWhile_cons_of_neg hx]

theorem takeWhile_length_eq (q : Nat → Bool) (l : List Nat) (m : Nat)
    (hml : m ≤ l.length)
    (h1 : ∀ k, k < m → q (l.getD k 0) = true)
    (h2 : m < l.length → q (l.getD m 0) = false) :
    (l.takeWhile q).length = m := by
  rcases Nat.lt_trichotomy (l.takeWhile q).length m with h | h | h
  · have hf := takeWhile_getD_false q l (Nat.lt_of_lt_of_le h hml)
    have ht := h1 _ h
    rw [ht] at hf
    cases hf
  · exact h
  · have hml2 : m < l.length := Nat.lt_of_lt_of_le h (takeWhile_length_le q l)
    have ht := takeWhile_getD_true q l m h
    have hf := h2 hml2
    rw [ht] at hf
    cases hf

theorem take_getD_succ (l : List Nat) (m : Nat) (h : m < l.length) :
    l.take (m + 1) = l.take m ++ [l.getD m 0] := by
  induction l generalizing m with
  | nil => simp at h
  | cons x xs ih =>
    cases m with
    | zero => simp
    | succ m =>
      simp only [List.length_cons, Nat.add_lt_add_iff_right] at h
      simp [ih m h]

theorem writeAt_length (buf d : List Nat) (off : Nat) (h : off + d.length ≤ buf.length) :
    (writeAt buf off d).length = buf.length := by
  simp only [writeAt, List.length_append, List.length_take, List.length_drop]
  omega

theorem writeAt_getD (buf d : List Nat) (off p : Nat)
    (h : off + d.length ≤ buf.length) (hp : p < buf.length) :
    (writeAt buf off d).getD p 0 =
      if off ≤ p ∧ p < off + d.length then d.getD (p - off) 0 else buf.getD p 0 := by
  have ht : (buf.take off).length = off := by
    simp only [List.length_take]
    omega
  unfold writeAt
  rw [List.append_assoc, getD_append, getD_append, ht, getD_take, getD_drop]
  rcases Nat.lt_or_ge p off with hc | hc
  · rw [if_pos hc, if_pos hc, if_neg (by omega)]
  · rw [if_neg (by omega)]
    rcases Nat.lt_or_ge (p - off) d.length with hc2 | hc2
    · rw [if_pos hc2, if_pos (by omega)]
    · rw [if_neg (by omega), if_neg (by omega)]
      congr 1
      omega

theorem byteSlice_length (data : List Nat) (off len : Nat) (h : off + len ≤ data.length) :
    (byteSlice data off len).length = len := by
  simp only [byteSlice, List.length_take, List.length_drop]
  omega

theorem byteSlice_getD (data : List Nat) (off len i : Nat) (h : i < len) :
    (byteSlice data off len).getD i 0 = data.getD (off + i) 0 := by
  simp only [byteSlice, getD_take, getD_drop, if_pos h]

theorem take_append_byteSlice (data : List Nat) (pos len : Nat) :
    data.take pos ++ byteSlice data pos len = data.take (pos + len) := by
  rw [byteSlice]
  exact (List.take_add data pos len).symm

/-! ### Claim C8: short index input fails fatally -/

/-- Claim C8: for every input shorter than 16 bytes, the IndexTable read
operation fails (`struct.unpack` on `data[0:16]` raises, the spec's
`FormatError`), and no entries are returned. -/
theorem c8_short_input_fails (data : List Nat) (h : data.length < 16) :
    pftRead data = none := by
  simp [pftRead, h]

theorem c8_short_input_fails_witness :
    ([] : List Nat).length < 16 ∧ pftRead [] = none :=
  ⟨by decide, c8_short_input_fails [] (by decide)⟩

/-! ### Claim C2: rebuild ∘ parse is the identity without replacements -/

/-- Claim C2: for every unit file byte string, `rebuild` applied to the
result of `parse` with no replacement texts returns exactly the original
unit bytes. -/
theorem c2_rebuild_parse_identity (enc : Encoding) (data : List Nat) :
    (rebuild enc (parse enc data) none).1 = data := rfl

/-! ### Claim C10: an empty replacement list is the identity, no warning -/

/-- Claim C10: calling `rebuild` with an empty replacement list on a
container with one or more segments returns the original snapshot with no
count-mismatch warning, identically to passing no replacement list at all
(Python's `if not new_texts` treats `[]` and `None` alike, before the
mismatch check). -/
theorem c10_empty_texts_identity (enc : Encoding) (c : SCFContainer)
    (h : 0 < c.text_segments.length) :
    rebuild enc c (some []) = (c.original_data, false) ∧
      rebuild enc c (some []) = rebuild enc c none :=
  ⟨rfl, rfl⟩

theorem c10_empty_texts_identity_witness :
    0 < (parse sjisEnc [0x82, 0xA0, 0]).text_segments.length ∧
    (rebuild sjisEnc (parse sjisEnc [0x82, 0xA0, 0]) (some []) =
        ((parse sjisEnc [0x82, 0xA0, 0]).original_data, false) ∧
      rebuild sjisEnc (parse sjisEnc [0x82, 0xA0, 0]) (some []) =
        rebuild sjisEnc (parse sjisEnc [0x82, 0xA0, 0]) none) :=
  ⟨by decide, c10_empty_texts_identity sjisEnc (parse sjisEnc [0x82, 0xA0, 0]) (by decide)⟩

/-! ### Claim C7: unpack is per-entry best effort -/

/-- Claim C7: during `unpack`, every entry whose span
`[blockIndex*2048, blockIndex*2048+byteSize)` exceeds the archive length is
reported as a per-entry range error and skipped, without aborting the
batch, and every entry within bounds is written as a unit file holding
exactly the `byteSize` bytes at offset `blockIndex*2048`: the written files
are exactly those of the in-bounds entries, in order, and the failures
exactly the out-of-bounds entries. -/
theorem c7_unpack_best_effort (archive : List Nat) (entries : List Entry) :
    (unpack archive entries).1 = entries.filterMap (fun e =>
      if e.blockIndex * BLOCK_SIZE + e.byteSize ≤ archive.length then
        some (e.name, byteSlice archive (e.blockIndex * BLOCK_SIZE) e.byteSize)
      else none) ∧
    (unpack archive entries).2 = entries.filter (fun e =>
      !(decide (e.blockIndex * BLOCK_SIZE + e.byteSize ≤ archive.length))) := by
  induction entries with
  | nil => exact ⟨rfl, rfl⟩
  | cons e rest ih =>
    by_cases hb : e.blockIndex * BLOCK_SIZE + e.byteSize ≤ archive.length
    · constructor
      · simpa [unpack, unpackGo, hb] using ih.1
      · simpa [unpack, unpackGo, hb] using ih.2
    · constructor
      · simpa [unpack, unpackGo, hb] using ih.1
      · simpa [unpack, unpackGo, hb] using ih.2

/-! ### Claim C3: repack output size -/

theorem foldl_max_le_init (l : List Entry) (a : Nat) :
    a ≤ l.foldl (fun m e => max m e.blockIndex) a := by
  induction l generalizing a with
  | nil => exact Nat.le_refl a
  | cons x xs ih =>
    exact Nat.le_trans (Nat.le_max_left a x.blockIndex) (ih (max a x.blockIndex))

theorem mem_le_maxIdx (entries : List Entry) (e : Entry) (he : e ∈ entries) :
    e.blockIndex ≤ maxIdx entries := by
  unfold maxIdx
  generalize 0 = a
  induction entries generalizing a with
  | nil => cases he
  | cons x xs ih =>
    rcases List.mem_cons.mp he with rfl | he'
    · exact Nat.le_trans (Nat.le_trans (Nat.le_max_right a e.blockIndex)
        (Nat.le_refl _)) (foldl_max_le_init xs (max a e.blockIndex))
    · exact ih he' (max a x.blockIndex)

theorem repack_foldl_length (files : String → Option (List Nat)) (total : Nat) :
    ∀ (es : List Entry) (buf : List Nat), buf.length = total →
      (∀ e ∈ es, ∀ d, files e.name = some d →
        e.blockIndex * BLOCK_SIZE + d.length ≤ total) →
      (es.foldl (repackStep files) buf).length = total := by
  intro es
  induction es with
  | nil =>
    intro buf hb _
    simpa using hb
  | cons e es ih =>
    intro buf hb hfit
    simp only [List.foldl_cons]
    apply ih
    · unfold repackStep
      cases hf : files e.name with
      | none => exact hb
      | some d =>
        rw [writeAt_length]
        · exact hb
        · rw [hb]
          exact hfit e (by simp) d hf
    · intro e' he' d hd
      exact hfit e' (by simp [he']) d hd

/-- Claim C3, amended: for every non-empty entry list and replacement file
set, `repack` builds a brand-new zero-filled buffer of
`(maxIdx+1) * BLOCK_SIZE` bytes without reading the original archive
(observe that `repack` does not take the archive as input); PROVIDED every
present replacement file fits inside that buffer
(`blockIndex*2048 + fileLength ≤ (maxIdx+1)*2048`), the produced archive
has exactly that length.  (Unamended, the length claim is false: a
replacement larger than the space to the end of the buffer grows the
`bytearray` through slice assignment — see the counterexample.) -/
theorem c3_repack_size (entries : List Entry) (files : String → Option (List Nat))
    (hne : entries ≠ [])
    (hfit : ∀ e ∈ entries, ∀ d, files e.name = some d →
      e.blockIndex * BLOCK_SIZE + d.length ≤ (maxIdx entries + 1) * BLOCK_SIZE) :
    ∃ out, repack entries files = some out ∧
      out.length = (maxIdx entries + 1) * BLOCK_SIZE := by
  have hie : entries.isEmpty = false := by
    cases entries with
    | nil => cases hne rfl
    | cons a l => rfl
  refine ⟨entries.foldl (repackStep files)
    (List.replicate ((maxIdx entries + 1) * BLOCK_SIZE) 0), ?_, ?_⟩
  · simp [repack, hie]
  · exact repack_foldl_length files _ entries _ (by simp) hfit

/-- Claim C3 counterexample: with the single entry `("A", 0, 5)` and a
replacement unit file of 2049 bytes, the archive produced by `repack` has
2049 bytes, not the claimed `(max(blockIndex)+1) * 2048 = 2048`: the
`bytearray` slice assignment grows the buffer past its allocated size. -/
theorem c3_repack_size_counterexample :
    ([⟨"A", 0, 5⟩] : List Entry) ≠ [] ∧
    (repack [⟨"A", 0, 5⟩] (fun _ => some (List.replicate 2049 1))).map
      List.length = some 2049 ∧
    2049 ≠ (maxIdx [(⟨"A", 0, 5⟩ : Entry)] + 1) * BLOCK_SIZE := by
  refine ⟨by decide, ?_, by decide⟩
  unfold repack repackStep writeAt
  rw [if_neg (by decide)]
  simp only [List.foldl_cons, List.foldl_nil]
  simp only [List.length_replicate, List.take_zero, List.nil_append]
  rw [List.drop_eq_nil_iff.mpr (by simp only [List.length_replicate]; decide)]
  simp

theorem c3_repack_size_witness :
    (([⟨"B", 1, 3⟩] : List Entry) ≠ []) ∧
    (∃ out, repack [⟨"B", 1, 3⟩] (fun n => if n = "B" then some [1, 2, 3] else none) =
        some out ∧
      out.length = (maxIdx [(⟨"B", 1, 3⟩ : Entry)] + 1) * BLOCK_SIZE) := by
  refine ⟨by decide, c3_repack_size _ _ (by decide) ?_⟩
  intro e he d hd
  simp only [List.mem_singleton] at he
  subst he
  have hd2 : some ([1, 2, 3] : List Nat) = some d := hd
  have hd3 : ([1, 2, 3] : List Nat) = d := Option.some.inj hd2
  subst hd3
  decide

/-! ### Claim C5: partial replacement -/

theorem segsChained_zip (data : List Nat) :
    ∀ (segs : List TextSegment) (ts : List (List Char)) (pos : Nat),
      segsChained data pos segs = true →
      segsChained data pos ((segs.zip ts).map Prod.fst) = true := by
  intro segs
  induction segs with
  | nil =>
    intro ts pos _
    simp [segsChained]
  | cons s segs ih =>
    intro ts pos h
    cases ts with
    | nil => simp [segsChained]
    | cons t ts =>
      simp only [List.zip_cons_cons, List.map_cons]
      simp only [segsChained, Bool.and_eq_true] at h ⊢
      exact ⟨h.1, ih ts _ h.2⟩

theorem foldr_rebuild_spliceSpec (enc : Encoding) (data : List Nat) :
    ∀ (pairs : List (TextSegment × List Char)) (pos : Nat),
      segsChained data pos (pairs.map Prod.fst) = true →
      List.foldr (rebuildStep enc) data pairs =
        data.take pos ++ spliceSpec enc data pos pairs := by
  intro pairs
  induction pairs with
  | nil =>
    intro pos _
    rw [spliceSpec]
    exact (List.take_append_drop pos data).symm
  | cons p rest ih =>
    obtain ⟨s, t⟩ := p
    intro pos hch
    simp only [List.map_cons, segsChained, Bool.and_eq_true, decide_eq_true_eq] at hch
    obtain ⟨⟨hpos, hlen⟩, hch'⟩ := hch
    simp only [List.foldr_cons]
    rw [ih (s.offset + s.length) hch']
    have htklen : (data.take (s.offset + s.length)).length = s.offset + s.length := by
      simp only [List.length_take]
      omega
    rw [spliceSpec]
    unfold rebuildStep
    cases he : enc.encode t with
    | none =>
      simp only
      rw [← List.append_assoc, ← List.append_assoc, take_append_byteSlice,
        show pos + (s.offset - pos) = s.offset from by omega, take_append_byteSlice]
    | some bs =>
      simp only
      unfold splice
      set S := spliceSpec enc data (s.offset + s.length) rest with hS
      set X := data.take (s.offset + s.length) with hX
      have h2 : (X ++ S).take s.offset = data.take s.offset := by
        rw [List.take_append_of_le_length (by omega), hX, List.take_take]
        congr 1
        omega
      have h3 : (X ++ S).drop (s.offset + s.length) = S := by
        rw [← htklen]
        exact List.drop_left X S
      rw [h2, h3]
      simp only [List.append_assoc]
      rw [← List.append_assoc (data.take pos) (byteSlice data pos (s.offset - pos)),
        take_append_byteSlice,
        show pos + (s.offset - pos) = s.offset from by omega]

/-- Claim C5, amended: when `rebuild` is given a NON-EMPTY list of fewer
replacement texts than the container has segments (on a container
satisfying the chained-segments invariant that `parse` guarantees), it
replaces only the first N segments where N is the number of supplied texts
(processed internally in descending offset order), keeps every byte
outside those N spans — in particular every remaining segment's original
bytes, which lie in the verbatim tail `data.drop _` of the spliced form —
and emits the count-mismatch warning instead of failing.  (Unamended the
claim is false: with ZERO supplied texts `rebuild` returns early on the
falsy empty list and emits no warning — see the counterexample.) -/
theorem c5_fewer_texts (enc : Encoding) (c : SCFContainer) (ts : List (List Char))
    (hne : ts ≠ []) (hlt : ts.length < c.text_segments.length)
    (hch : segsChained c.original_data 0 c.text_segments = true) :
    (rebuild enc c (some ts)).2 = true ∧
    (rebuild enc c (some ts)).1 =
      spliceSpec enc c.original_data 0 (c.text_segments.zip ts) := by
  cases ts with
  | nil => cases hne rfl
  | cons t ts' =>
    constructor
    · simp only [rebuild, decide_eq_true_eq]
      omega
    · show List.foldr (rebuildStep enc) c.original_data
        (c.text_segments.zip (t :: ts')) = _
      have := foldr_rebuild_spliceSpec enc c.original_data
        (c.text_segments.zip (t :: ts')) 0
        (segsChained_zip c.original_data c.text_segments (t :: ts') 0 hch)
      simpa using this

/-- Claim C5 counterexample: an empty replacement list is "fewer texts than
segments" for a one-segment container, yet `rebuild` emits no
count-mismatch warning (it returns the snapshot before the mismatch
check). -/
theorem c5_fewer_texts_counterexample :
    ([] : List (List Char)).length <
      (parse sjisEnc [0x82, 0xA0, 0]).text_segments.length ∧
    (rebuild sjisEnc (parse sjisEnc [0x82, 0xA0, 0]) (some [])).2 = false := by
  decide

theorem c5_fewer_texts_witness :
    ([[Char.ofNat 0x41]] : List (List Char)).length <
      (parse sjisEnc [0x82, 0xA0, 0, 0x82, 0xA0, 0]).text_segments.length ∧
    ((rebuild sjisEnc (parse sjisEnc [0x82, 0xA0, 0, 0x82, 0xA0, 0])
        (some [[Char.ofNat 0x41]])).2 = true ∧
      (rebuild sjisEnc (parse sjisEnc [0x82, 0xA0, 0, 0x82, 0xA0, 0])
          (some [[Char.ofNat 0x41]])).1 =
        spliceSpec sjisEnc (parse sjisEnc [0x82, 0xA0, 0, 0x82, 0xA0, 0]).original_data 0
          ((parse sjisEnc [0x82, 0xA0, 0, 0x82, 0xA0, 0]).text_segments.zip
            [[Char.ofNat 0x41]])) :=
  ⟨by decide, c5_fewer_texts sjisEnc (parse sjisEnc [0x82, 0xA0, 0, 0x82, 0xA0, 0])
    [[Char.ofNat 0x41]] (by decide) (by decide) (by decide)⟩

/-! ### The parse scan: structural lemmas -/

theorem scanGo_succ (enc : Encoding) (fuel off : Nat) (rest : List Nat) :
    scanGo enc (fuel + 1) off rest =
      if rest.length = 0 then []
      else if 1 < (segOf rest).length ∧
          hasJapanese (enc.decode (segOf rest).dropLast) = true then
        { offset := off, length := (segOf rest).length, original := segOf rest,
          text := enc.decode (segOf rest).dropLast } ::
          scanGo enc fuel (off + (segOf rest).length) (rest.drop (segOf rest).length)
      else scanGo enc fuel (off + (segOf rest).length) (rest.drop (segOf rest).length) :=
  rfl

theorem segOf_eq_take (rest : List Nat) :
    segOf rest = rest.take (segOf rest).length := by
  simp only [segOf]
  by_cases ht : (rest.takeWhile (fun b => b != 0)).length < rest.length
  · rw [if_pos ht]
    rw [List.length_append, List.length_singleton]
    rw [take_getD_succ rest _ ht]
    have h0 := takeWhile_getD_false (fun b => b != 0) rest ht
    simp only [bne_eq_false_iff_eq] at h0
    rw [h0, ← takeWhile_eq_take]
  · rw [if_neg ht]
    exact takeWhile_eq_take _ rest

theorem scanGo_offset_le (enc : Encoding) :
    ∀ (fuel off : Nat) (rest : List Nat) (s : TextSegment),
      s ∈ scanGo enc fuel off rest → off ≤ s.offset := by
  intro fuel
  induction fuel with
  | zero =>
    intro off rest s hs
    simp [scanGo] at hs
  | succ f ih =>
    intro off rest s hs
    rw [scanGo_succ] at hs
    by_cases hempty : rest.length = 0
    · rw [if_pos hempty] at hs
      simp at hs
    · rw [if_neg hempty] at hs
      by_cases hcond : 1 < (segOf rest).length ∧
          hasJapanese (enc.decode (segOf rest).dropLast) = true
      · rw [if_pos hcond] at hs
        rcases List.mem_cons.mp hs with h | h
        · subst h
          exact Nat.le_refl off
        · have := ih (off + (segOf rest).length) _ s h
          omega
      · rw [if_neg hcond] at hs
        have := ih (off + (segOf rest).length) _ s hs
        omega

theorem scanGo_chained (enc : Encoding) :
    ∀ (fuel off : Nat) (rest : List Nat),
      (scanGo enc fuel off rest).Pairwise
        (fun a b => a.offset + a.length ≤ b.offset) := by
  intro fuel
  induction fuel with
  | zero =>
    intro off rest
    simp [scanGo]
  | succ f ih =>
    intro off rest
    rw [scanGo_succ]
    by_cases hempty : rest.length = 0
    · rw [if_pos hempty]
      exact List.Pairwise.nil
    · rw [if_neg hempty]
      by_cases hcond : 1 < (segOf rest).length ∧
          hasJapanese (enc.decode (segOf rest).dropLast) = true
      · rw [if_pos hcond]
        refine List.Pairwise.cons ?_ (ih _ _)
        intro b hb
        have := scanGo_offset_le enc f (off + (segOf rest).length) _ b hb
        show off + (segOf rest).length ≤ b.offset
        omega
      · rw [if_neg hcond]
        exact ih _ _

theorem scanGo_fields (enc : Encoding) (data : List Nat) :
    ∀ (fuel off : Nat) (s : TextSegment), s ∈ scanGo enc fuel off (data.drop off) →
      s.original = byteSlice data s.offset s.length ∧
      s.length = s.original.length ∧
      s.text = enc.decode s.original.dropLast := by
  intro fuel
  induction fuel with
  | zero =>
    intro off s hs
    simp [scanGo] at hs
  | succ f ih =>
    intro off s hs
    rw [scanGo_succ] at hs
    by_cases hempty : (data.drop off).length = 0
    · rw [if_pos hempty] at hs
      simp at hs
    · rw [if_neg hempty] at hs
      have hdroprec : (data.drop off).drop (segOf (data.drop off)).length =
          data.drop (off + (segOf (data.drop off)).length) := by
        rw [List.drop_drop]
      by_cases hcond : 1 < (segOf (data.drop off)).length ∧
          hasJapanese (enc.decode (segOf (data.drop off)).dropLast) = true
      · rw [if_pos hcond] at hs
        rcases List.mem_cons.mp hs with h | h
        · subst h
          refine ⟨?_, rfl, rfl⟩
          show segOf (data.drop off) = byteSlice data off (segOf (data.drop off)).length
          rw [byteSlice]
          exact segOf_eq_take _
        · rw [hdroprec] at h
          exact ih (off + (segOf (data.drop off)).length) s h
      · rw [if_neg hcond] at hs
        rw [hdroprec] at hs
        exact ih (off + (segOf (data.drop off)).length) s hs

/-! ### Claim C6: segments sorted and non-overlapping -/

/-- Claim C6: in every container returned by `parse`, the segment list is
sorted ascending by offset and segments never overlap: for all `i < j`,
`segments[i].offset + segments[i].length ≤ segments[j].offset`. -/
theorem c6_segments_sorted_disjoint (enc : Encoding) (data : List Nat) (i j : Nat)
    (hi : i < (parse enc data).text_segments.length)
    (hj : j < (parse enc data).text_segments.length) (hij : i < j) :
    ((parse enc data).text_segments.get ⟨i, hi⟩).offset +
      ((parse enc data).text_segments.get ⟨i, hi⟩).length ≤
    ((parse enc data).text_segments.get ⟨j, hj⟩).offset := by
  have hp : (parse enc data).text_segments.Pairwise
      (fun a b => a.offset + a.length ≤ b.offset) :=
    scanGo_chained enc data.length 0 data
  exact List.pairwise_iff_get.mp hp ⟨i, hi⟩ ⟨j, hj⟩ (Fin.mk_lt_mk.mpr hij)

theorem c6_segments_sorted_disjoint_witness :
    ((parse sjisEnc [0x82, 0xA0, 0, 0x82, 0xA0, 0]).text_segments.get
        ⟨0, by decide⟩).offset +
      ((parse sjisEnc [0x82, 0xA0, 0, 0x82, 0xA0, 0]).text_segments.get
        ⟨0, by decide⟩).length ≤
    ((parse sjisEnc [0x82, 0xA0, 0, 0x82, 0xA0, 0]).text_segments.get
      ⟨1, by decide⟩).offset :=
  c6_segments_sorted_disjoint sjisEnc [0x82, 0xA0, 0, 0x82, 0xA0, 0] 0 1
    (by decide) (by decide) (by decide)

/-! ### Claim C9: segments are consistent with the snapshot -/

/-- Claim C9: for every container produced by `parse` and every segment in
it, the stored raw bytes equal the snapshot bytes at
`[offset, offset+length)`, the stored length equals the number of raw
bytes, and the decoded text is the lossy decoding of the raw bytes without
their final byte (the null terminator whenever the run was terminated). -/
theorem c9_segment_snapshot_consistency (enc : Encoding) (data : List Nat)
    (s : TextSegment) (hs : s ∈ (parse enc data).text_segments) :
    s.original = byteSlice data s.offset s.length ∧
    s.length = s.original.length ∧
    s.text = enc.decode s.original.dropLast := by
  apply scanGo_fields enc data data.length 0 s
  simpa using hs

theorem c9_segment_snapshot_consistency_witness :
    (⟨0, 3, [0x82, 0xA0, 0], [Char.ofNat 0x3042]⟩ : TextSegment) ∈
      (parse sjisEnc [0x82, 0xA0, 0]).text_segments ∧
    (([0x82, 0xA0, 0] : List Nat) = byteSlice [0x82, 0xA0, 0] 0 3 ∧
      (3 : Nat) = ([0x82, 0xA0, 0] : List Nat).length ∧
      [Char.ofNat 0x3042] = sjisEnc.decode ([0x82, 0xA0, 0] : List Nat).dropLast) :=
  ⟨by decide, c9_segment_snapshot_consistency sjisEnc [0x82, 0xA0, 0]
    ⟨0, 3, [0x82, 0xA0, 0], [Char.ofNat 0x3042]⟩ (by decide)⟩

/-! ### Claim C4: characterization of recorded segments -/

theorem scanGo_mem_iff (enc : Encoding) (data : List Nat)
    (hlast : data.getLast? = some 0) :
    ∀ (fuel off : Nat), data.length ≤ off + fuel →
      (off = 0 ∨ data.getD (off - 1) 0 = 0) →
      ∀ o l : Nat,
        (∃ s ∈ scanGo enc fuel off (data.drop off), s.offset = o ∧ s.length = l) ↔
        (off ≤ o ∧ IsMaxRun data o l ∧ 2 ≤ l ∧
          hasJapanese (enc.decode (byteSlice data o (l - 1))) = true) := by
  intro fuel
  induction fuel with
  | zero =>
    intro off hf hb o l
    constructor
    · rintro ⟨s, hs, _⟩
      simp [scanGo] at hs
    · rintro ⟨hoo, hmr, _, _⟩
      unfold IsMaxRun at hmr
      obtain ⟨hl1, hol, _⟩ := hmr
      omega
  | succ f ih =>
    intro off hf hb o l
    rw [scanGo_succ]
    by_cases hempty : (data.drop off).length = 0
    · rw [if_pos hempty]
      have hoff : data.length ≤ off := by
        rw [List.length_drop] at hempty
        omega
      constructor
      · rintro ⟨s, hs, _⟩
        simp at hs
      · rintro ⟨hoo, hmr, _, _⟩
        unfold IsMaxRun at hmr
        obtain ⟨hl1, hol, _⟩ := hmr
        omega
    · rw [if_neg hempty]
      have hofflt : off < data.length := by
        rw [List.length_drop] at hempty
        omega
      have hrne : data.drop off ≠ [] := by
        intro hcon
        rw [hcon] at hempty
        simp at hempty
      have hrlast : (data.drop off).getLast? = some 0 := by
        conv at hlast => rw [← List.take_append_drop off data]
        rw [List.getLast?_append_of_ne_nil _ hrne] at hlast
        exact hlast
      have hdroplen : (data.drop off).length = data.length - off := List.length_drop off data
      have hterm : ((data.drop off).takeWhile (fun b => b != 0)).length <
          (data.drop off).length := by
        by_contra hno
        push_neg at hno
        have hle2 := takeWhile_length_le (fun b => b != 0) (data.drop off)
        have hlpos : 0 < (data.drop off).length := by omega
        have htw := takeWhile_getD_true (fun b => b != 0) (data.drop off)
          ((data.drop off).length - 1) (by omega)
        have hg : (data.drop off).getD ((data.drop off).length - 1) 0 = 0 := by
          rw [List.getLast?_eq_getElem?] at hrlast
          rw [List.getElem?_eq_getElem (by omega)] at hrlast
          rw [List.getD_eq_getElem _ _ (by omega)]
          exact Option.some.inj hrlast
        rw [hg] at htw
        simp at htw
      have hseg : segOf (data.drop off) =
          (data.drop off).takeWhile (fun b => b != 0) ++ [0] := by
        simp only [segOf]
        rw [if_pos hterm]
      set run := (data.drop off).takeWhile (fun b => b != 0) with hrun
      have hseglen : (segOf (data.drop off)).length = run.length + 1 := by
        rw [hseg]
        simp
      have hrun_true : ∀ k, k < run.length → data.getD (off + k) 0 ≠ 0 := by
        intro k hk
        have := takeWhile_getD_true (fun b => b != 0) (data.drop off) k hk
        rw [getD_drop] at this
        simpa using this
      have hrun_term : data.getD (off + run.length) 0 = 0 := by
        have := takeWhile_getD_false (fun b => b != 0) (data.drop off) hterm
        rw [getD_drop] at this
        simpa using this
      have hrun_len_le : run.length + 1 ≤ data.length - off := by omega
      have hdl : (segOf (data.drop off)).dropLast = run := by
        rw [hseg]
        exact List.dropLast_concat
      have hbs : byteSlice data off run.length = run := by
        rw [byteSlice, hrun]
        exact (takeWhile_eq_take (fun b => b != 0) (data.drop off)).symm
      have hdroprec : (data.drop off).drop (segOf (data.drop off)).length =
          data.drop (off + (segOf (data.drop off)).length) := by
        rw [List.drop_drop]
      have hb2 : (off + (segOf (data.drop off)).length = 0 ∨
          data.getD (off + (segOf (data.drop off)).length - 1) 0 = 0) := by
        right
        rw [hseglen]
        have he2 : off + (run.length + 1) - 1 = off + run.length := by omega
        rw [he2]
        exact hrun_term
      have hf2 : data.length ≤ (off + (segOf (data.drop off)).length) + f := by
        rw [hseglen]
        omega
      have ihx := ih (off + (segOf (data.drop off)).length) hf2 hb2
      have hatoff : ∀ l' : Nat, IsMaxRun data off l' → l' = run.length + 1 := by
        intro l' hmr
        unfold IsMaxRun at hmr
        obtain ⟨hl1, hol, hcontent, hterm0, _⟩ := hmr
        have hrl : run.length = l' - 1 := by
          rw [hrun]
          apply takeWhile_length_eq (fun b => b != 0) (data.drop off) (l' - 1)
          · omega
          · intro k hk
            have := hcontent k hk
            rw [getD_drop]
            simpa using this
          · intro hlt2
            have he3 : off + (l' - 1) = off + l' - 1 := by omega
            rw [getD_drop, he3, hterm0]
            decide
        omega
      have honly : ∀ o' l' : Nat, off ≤ o' → o' ≠ off → IsMaxRun data o' l' →
          off + (segOf (data.drop off)).length ≤ o' := by
        intro o' l' hle hne hmr
        by_contra hno
        push_neg at hno
        rw [hseglen] at hno
        have hlt : off < o' := by omega
        unfold IsMaxRun at hmr
        obtain ⟨_, _, _, _, hleft⟩ := hmr
        rcases hleft with h0 | hprev
        · omega
        · have hk : o' - 1 - off < run.length := by omega
          have := hrun_true (o' - 1 - off) hk
          have he4 : off + (o' - 1 - off) = o' - 1 := by omega
          rw [he4] at this
          exact this hprev
      have hmr_off : IsMaxRun data off (run.length + 1) := by
        unfold IsMaxRun
        refine ⟨by omega, by omega, ?_, ?_, hb⟩
        · intro k hk
          have hk2 : k < run.length := by omega
          exact hrun_true k hk2
        · have he5 : off + (run.length + 1) - 1 = off + run.length := by omega
          rw [he5]
          exact hrun_term
      by_cases hcond : 1 < (segOf (data.drop off)).length ∧
          hasJapanese (enc.decode (segOf (data.drop off)).dropLast) = true
      · rw [if_pos hcond]
        constructor
        · rintro ⟨s, hs, hso, hsl⟩
          rcases List.mem_cons.mp hs with h | h
          · subst h
            subst hso
            subst hsl
            refine ⟨Nat.le_refl off, ?_, ?_, ?_⟩
            · show IsMaxRun data off (segOf (data.drop off)).length
              rw [hseglen]
              exact hmr_off
            · show 2 ≤ (segOf (data.drop off)).length
              have := hcond.1
              omega
            · show hasJapanese
                (enc.decode (byteSlice data off ((segOf (data.drop off)).length - 1))) = true
              rw [hseglen]
              simp only [Nat.add_sub_cancel]
              rw [hbs, ← hdl]
              exact hcond.2
          · rw [hdroprec] at h
            have hrec := (ihx o l).mp ⟨s, h, hso, hsl⟩
            obtain ⟨h1, h2⟩ := hrec
            exact ⟨by omega, h2⟩
        · rintro ⟨hoo, hmr, hl2, hjap⟩
          by_cases ho : o = off
          · subst ho
            have hleq := hatoff l hmr
            refine ⟨⟨o, (segOf (data.drop o)).length, segOf (data.drop o),
              enc.decode (segOf (data.drop o)).dropLast⟩, List.mem_cons_self _ _, rfl, ?_⟩
            show (segOf (data.drop o)).length = l
            rw [hseglen]
            omega
          · have hge := honly o l hoo ho hmr
            have hrec := (ihx o l).mpr ⟨hge, hmr, hl2, hjap⟩
            obtain ⟨s, hs, hprop⟩ := hrec
            rw [← hdroprec] at hs
            exact ⟨s, List.mem_cons_of_mem _ hs, hprop⟩
      · rw [if_neg hcond]
        constructor
        · rintro ⟨s, hs, hso, hsl⟩
          rw [hdroprec] at hs
          have hrec := (ihx o l).mp ⟨s, hs, hso, hsl⟩
          obtain ⟨h1, h2⟩ := hrec
          exact ⟨by omega, h2⟩
        · rintro ⟨hoo, hmr, hl2, hjap⟩
          by_cases ho : o = off
          · exfalso
            subst ho
            have hleq := hatoff l hmr
            apply hcond
            constructor
            · rw [hseglen]
              omega
            · rw [hdl]
              have hslice : byteSlice data o (l - 1) = run := by
                have hx : l - 1 = run.length := by omega
                rw [hx, hbs]
              rw [← hslice]
              exact hjap
          · have hge := honly o l hoo ho hmr
            have hrec := (ihx o l).mpr ⟨hge, hmr, hl2, hjap⟩
            obtain ⟨s, hs, hprop⟩ := hrec
            rw [← hdroprec] at hs
            exact ⟨s, hs, hprop⟩

/-- Claim C4, amended: for unit files that are empty or end in a null byte,
`parse` records a run of bytes as a text segment exactly when it is a
maximal run of non-null bytes terminated by one null byte (the terminator
counted in the segment's length) whose decoding under the container's
legacy double-byte encoding, ignoring undecodable bytes and excluding the
terminator, contains at least one character in U+3040..U+30FF or
U+4E00..U+9FFF.  (Unamended the claim is false: a unit whose final bytes
form an UNTERMINATED non-null run is also recorded, with the run's last
byte excluded from the decoded text in place of a terminator — see the
counterexample.) -/
theorem c4_text_segment_iff (enc : Encoding) (data : List Nat)
    (hlast : data = [] ∨ data.getLast? = some 0) (o l : Nat) :
    (∃ s ∈ (parse enc data).text_segments, s.offset = o ∧ s.length = l) ↔
    (IsMaxRun data o l ∧ 2 ≤ l ∧
      hasJapanese (enc.decode (byteSlice data o (l - 1))) = true) := by
  rcases hlast with rfl | hlast
  · constructor
    · rintro ⟨s, hs, _⟩
      simp [parse, scanGo] at hs
    · rintro ⟨hmr, _, _⟩
      unfold IsMaxRun at hmr
      obtain ⟨h1, h2, _⟩ := hmr
      simp at h2
      omega
  · have hiff := scanGo_mem_iff enc data hlast data.length 0 (by omega) (Or.inl rfl) o l
    rw [List.drop_zero] at hiff
    constructor
    · intro hex
      exact (hiff.mp hex).2
    · intro hr
      exact hiff.mpr ⟨Nat.zero_le o, hr⟩

/-- Claim C4 counterexample: the unit `[0x82, 0xA0, 0x41]` ends in a
non-null byte, yet `parse` records the whole unterminated 3-byte run as a
text segment (its decoded text drops the trailing 0x41 instead of a null
terminator), although it is not a null-terminated maximal run. -/
theorem c4_text_segment_iff_counterexample :
    (∃ s ∈ (parse sjisEnc [0x82, 0xA0, 0x41]).text_segments,
      s.offset = 0 ∧ s.length = 3) ∧
    ¬ (IsMaxRun [0x82, 0xA0, 0x41] 0 3 ∧ 2 ≤ 3 ∧
      hasJapanese (sjisEnc.decode (byteSlice [0x82, 0xA0, 0x41] 0 2)) = true) := by
  decide

theorem c4_text_segment_iff_witness :
    (([0x82, 0xA0, 0] : List Nat) = [] ∨
      ([0x82, 0xA0, 0] : List Nat).getLast? = some 0) ∧
    ((∃ s ∈ (parse sjisEnc [0x82, 0xA0, 0]).text_segments,
        s.offset = 0 ∧ s.length = 3) ↔
      (IsMaxRun [0x82, 0xA0, 0] 0 3 ∧ 2 ≤ 3 ∧
        hasJapanese (sjisEnc.decode (byteSlice [0x82, 0xA0, 0] 0 2)) = true)) :=
  ⟨by decide, c4_text_segment_iff sjisEnc [0x82, 0xA0, 0] (by decide) 0 3⟩

/-! ### Claim C1: unpack/repack round trip -/

theorem unpack_files_of_bounds (archive : List Nat) :
    ∀ (entries : List Entry),
      (∀ e ∈ entries, e.blockIndex * BLOCK_SIZE + e.byteSize ≤ archive.length) →
      (unpack archive entries).1 = entries.map (fun e =>
        (e.name, byteSlice archive (e.blockIndex * BLOCK_SIZE) e.byteSize)) := by
  intro entries
  induction entries with
  | nil => intro _; rfl
  | cons e rest ih =>
    intro hb
    have hbe := hb e (by simp)
    have hr := ih (fun e' he' => hb e' (by simp [he']))
    simp only [unpack, unpackGo, if_pos hbe, List.map_cons]
    simpa [unpack] using hr

theorem fsLookup_cons (w : String × List Nat) (ws : List (String × List Nat))
    (n : String) :
    fsLookup (w :: ws) n =
      match fsLookup ws n with
      | some d => some d
      | none => if w.1 = n then some w.2 else none := rfl

theorem fsLookup_not_mem (ws : List (String × List Nat)) (n : String)
    (h : n ∉ ws.map Prod.fst) : fsLookup ws n = none := by
  induction ws with
  | nil => rfl
  | cons w ws ih =>
    simp only [List.map_cons, List.mem_cons] at h
    push_neg at h
    rw [fsLookup_cons, ih h.2]
    exact if_neg (fun hh => h.1 hh.symm)

theorem fsLookup_map_nodup (f : Entry → List Nat) :
    ∀ (entries : List Entry), (entries.map Entry.name).Nodup →
      ∀ e ∈ entries,
        fsLookup (entries.map (fun x => (x.name, f x))) e.name = some (f e) := by
  intro entries
  induction entries with
  | nil =>
    intro _ e he
    simp at he
  | cons a rest ih =>
    intro hnd e he
    simp only [List.map_cons, List.nodup_cons] at hnd
    obtain ⟨hna, hnd2⟩ := hnd
    rcases List.mem_cons.mp he with rfl | he2
    · have hnone : fsLookup (rest.map fun x => (x.name, f x)) e.name = none := by
        apply fsLookup_not_mem
        simpa [Function.comp] using hna
      simp only [List.map_cons]
      rw [fsLookup_cons, hnone]
      simp
    · have hr := ih hnd2 e he2
      simp only [List.map_cons]
      rw [fsLookup_cons, hr]

theorem repack_foldl_getD (files : String → Option (List Nat)) (archive : List Nat) :
    ∀ (es : List Entry) (buf : List Nat), buf.length = archive.length →
      (∀ e ∈ es, files e.name =
          some (byteSlice archive (e.blockIndex * BLOCK_SIZE) e.byteSize) ∧
        e.blockIndex * BLOCK_SIZE + e.byteSize ≤ archive.length) →
      (es.foldl (repackStep files) buf).length = archive.length ∧
      ∀ p, p < archive.length →
        (es.foldl (repackStep files) buf).getD p 0 =
          if ∃ e ∈ es, e.blockIndex * BLOCK_SIZE ≤ p ∧
              p < e.blockIndex * BLOCK_SIZE + e.byteSize
          then archive.getD p 0 else buf.getD p 0 := by
  intro es
  induction es with
  | nil =>
    intro buf hb _
    refine ⟨hb, ?_⟩
    intro p hp
    rw [if_neg]
    · rfl
    · rintro ⟨e, he, _⟩
      simp at he
  | cons e es ih =>
    intro buf hb hok
    obtain ⟨hfe, hbe⟩ := hok e (by simp)
    have hslen : (byteSlice archive (e.blockIndex * BLOCK_SIZE) e.byteSize).length =
        e.byteSize := byteSlice_length _ _ _ hbe
    have hstep_len : (repackStep files buf e).length = archive.length := by
      unfold repackStep
      rw [hfe, writeAt_length]
      · exact hb
      · rw [hb, hslen]
        exact hbe
    have hstep_getD : ∀ p, p < archive.length →
        (repackStep files buf e).getD p 0 =
          if e.blockIndex * BLOCK_SIZE ≤ p ∧ p < e.blockIndex * BLOCK_SIZE + e.byteSize
          then archive.getD p 0 else buf.getD p 0 := by
      intro p hp
      unfold repackStep
      rw [hfe, writeAt_getD _ _ _ _ (by rw [hb, hslen]; exact hbe) (by omega)]
      rw [hslen]
      by_cases hin : e.blockIndex * BLOCK_SIZE ≤ p ∧
          p < e.blockIndex * BLOCK_SIZE + e.byteSize
      · rw [if_pos hin, if_pos hin]
        rw [byteSlice_getD _ _ _ _ (by omega)]
        congr 1
        omega
      · rw [if_neg hin, if_neg hin]
    obtain ⟨hlen2, hget2⟩ := ih (repackStep files buf e) hstep_len
      (fun e' he' => hok e' (by simp [he']))
    refine ⟨by simpa only [List.foldl_cons] using hlen2, ?_⟩
    intro p hp
    simp only [List.foldl_cons]
    rw [hget2 p hp, hstep_getD p hp]
    by_cases hex : ∃ e' ∈ es, e'.blockIndex * BLOCK_SIZE ≤ p ∧
        p < e'.blockIndex * BLOCK_SIZE + e'.byteSize
    · obtain ⟨e', he', hsp⟩ := hex
      rw [if_pos ⟨e', he', hsp⟩, if_pos ⟨e', by simp [he'], hsp⟩]
    · rw [if_neg hex]
      by_cases hin : e.blockIndex * BLOCK_SIZE ≤ p ∧
          p < e.blockIndex * BLOCK_SIZE + e.byteSize
      · rw [if_pos hin, if_pos ⟨e, by simp, hin⟩]
      · rw [if_neg hin, if_neg ?_]
        rintro ⟨e', he', hsp⟩
        rcases List.mem_cons.mp he' with rfl | he2
        · exact hin hsp
        · exact hex ⟨e', he2, hsp⟩

/-- Claim C1, amended: for every NON-EMPTY entry list with PAIRWISE
DISTINCT names whose entries all lie WITHIN BOUNDS
(`blockIndex*2048 + byteSize ≤ archive.length`), and every archive whose
length equals `(max(blockIndex)+1) * 2048` and whose bytes outside every
entry's span are zero, repacking the unit files produced by `unpack` with
the same entries reproduces the original archive byte-for-byte.
(Unamended the claim is false: an out-of-range entry is skipped by
`unpack`, so `repack` drops it and zero-fills its span — see the
counterexample; the extra hypotheses are what the failure forces plus what
the file-per-name store needs.) -/
theorem c1_unpack_repack_roundtrip (entries : List Entry) (archive : List Nat)
    (hne : entries ≠ [])
    (hlen : archive.length = (maxIdx entries + 1) * BLOCK_SIZE)
    (hbound : ∀ e ∈ entries, e.blockIndex * BLOCK_SIZE + e.byteSize ≤ archive.length)
    (hnodup : (entries.map Entry.name).Nodup)
    (hzero : ∀ p, p < archive.length →
      (∀ e ∈ entries, ¬(e.blockIndex * BLOCK_SIZE ≤ p ∧
        p < e.blockIndex * BLOCK_SIZE + e.byteSize)) →
      archive.getD p 0 = 0) :
    repack entries (fsLookup (unpack archive entries).1) = some archive := by
  have hfiles := unpack_files_of_bounds archive entries hbound
  have hlook : ∀ e ∈ entries,
      fsLookup (unpack archive entries).1 e.name =
        some (byteSlice archive (e.blockIndex * BLOCK_SIZE) e.byteSize) := by
    intro e he
    rw [hfiles]
    exact fsLookup_map_nodup _ entries hnodup e he
  have hie : entries.isEmpty = false := by
    cases entries with
    | nil => cases hne rfl
    | cons a l => rfl
  have hinit_len : (List.replicate ((maxIdx entries + 1) * BLOCK_SIZE) (0 : Nat)).length =
      archive.length := by
    rw [List.length_replicate, hlen]
  obtain ⟨hflen, hfget⟩ := repack_foldl_getD (fsLookup (unpack archive entries).1)
    archive entries _ hinit_len (fun e he => ⟨hlook e he, hbound e he⟩)
  have hbody : entries.foldl (repackStep (fsLookup (unpack archive entries).1))
      (List.replicate ((maxIdx entries + 1) * BLOCK_SIZE) 0) = archive := by
    apply List.ext_getElem hflen
    intro i h1 h2
    have hD := hfget i (by omega)
    rw [List.getD_eq_getElem _ _ h1] at hD
    by_cases hex : ∃ e ∈ entries, e.blockIndex * BLOCK_SIZE ≤ i ∧
        i < e.blockIndex * BLOCK_SIZE + e.byteSize
    · rw [if_pos hex, List.getD_eq_getElem _ _ h2] at hD
      exact hD
    · rw [if_neg hex, replicate_getD_zero] at hD
      have h0 : archive.getD i 0 = 0 := by
        apply hzero i (by omega)
        intro e he hsp
        exact hex ⟨e, he, hsp⟩
      rw [List.getD_eq_getElem _ _ h2] at h0
      rw [hD, h0]
  rw [repack, if_neg (by rw [hie]; exact Bool.false_ne_true), hbody]

/-- Claim C1 counterexample: the single entry `("A", 0, 4096)` is out of
range for the 2048-byte archive `1 :: 0^2047`, which nevertheless
satisfies the claim's hypotheses (its length is `(max(blockIndex)+1)*2048`
and every archive byte lies inside the entry's span).  `unpack` skips the
entry, so `repack` finds no unit file and produces 2048 zero bytes —
not the original archive. -/
theorem c1_unpack_repack_roundtrip_counterexample :
    (1 :: List.replicate 2047 (0 : Nat)).length =
      (maxIdx [(⟨"A", 0, 4096⟩ : Entry)] + 1) * BLOCK_SIZE ∧
    (∀ p, p < (1 :: List.replicate 2047 (0 : Nat)).length →
      (∀ e ∈ ([⟨"A", 0, 4096⟩] : List Entry),
        ¬(e.blockIndex * BLOCK_SIZE ≤ p ∧
          p < e.blockIndex * BLOCK_SIZE + e.byteSize)) →
      (1 :: List.replicate 2047 (0 : Nat)).getD p 0 = 0) ∧
    repack [⟨"A", 0, 4096⟩]
        (fsLookup (unpack (1 :: List.replicate 2047 (0 : Nat)) [⟨"A", 0, 4096⟩]).1) ≠
      some (1 :: List.replicate 2047 (0 : Nat)) := by
  refine ⟨?_, ?_, ?_⟩
  · rw [List.length_cons, List.length_replicate]
    decide
  · intro p hp hns
    exfalso
    apply hns ⟨"A", 0, 4096⟩ (by simp)
    rw [List.length_cons, List.length_replicate] at hp
    constructor
    · exact Nat.zero_le p
    · show p < 0 * BLOCK_SIZE + 4096
      omega
  · intro hcon
    have hun : (unpack (1 :: List.replicate 2047 (0 : Nat)) [⟨"A", 0, 4096⟩]).1 = [] := by
      show (unpackGo _ [⟨"A", 0, 4096⟩]).1 = []
      rw [unpackGo]
      rw [if_neg ?_]
      · rfl
      · rw [List.length_cons, List.length_replicate]
        decide
    rw [hun] at hcon
    rw [repack, if_neg (by exact Bool.false_ne_true)] at hcon
    have hbody := Option.some.inj hcon
    have hhead : (List.foldl (repackStep (fsLookup []))
        (List.replicate ((maxIdx [(⟨"A", 0, 4096⟩ : Entry)] + 1) * BLOCK_SIZE) 0)
        [⟨"A", 0, 4096⟩]).getD 0 0 = (1 :: List.replicate 2047 (0 : Nat)).getD 0 0 := by
      rw [hbody]
    rw [List.foldl_cons, List.foldl_nil] at hhead
    have hstep : repackStep (fsLookup []) (List.replicate
        ((maxIdx [(⟨"A", 0, 4096⟩ : Entry)] + 1) * BLOCK_SIZE) 0) ⟨"A", 0, 4096⟩ =
        List.replicate ((maxIdx [(⟨"A", 0, 4096⟩ : Entry)] + 1) * BLOCK_SIZE) 0 := rfl
    rw [hstep, replicate_getD_zero, List.getD_cons_zero] at hhead
    exact absurd hhead (by decide)

theorem c1_unpack_repack_roundtrip_witness :
    (([⟨"A", 0, 1⟩] : List Entry) ≠ []) ∧
    repack [⟨"A", 0, 1⟩]
        (fsLookup (unpack (1 :: List.replicate 2047 (0 : Nat)) [⟨"A", 0, 1⟩]).1) =
      some (1 :: List.replicate 2047 (0 : Nat)) := by
  refine ⟨by decide, ?_⟩
  apply c1_unpack_repack_roundtrip
  · decide
  · rw [List.length_cons, List.length_replicate]
    decide
  · intro e he
    simp only [List.mem_singleton] at he
    subst he
    rw [List.length_cons, List.length_replicate]
    decide
  · decide
  · intro p hp hns
    rw [List.length_cons, List.length_replicate] at hp
    have hq := hns ⟨"A", 0, 1⟩ (by simp)
    have hp1 : 1 ≤ p := by
      by_contra hp0
      push_neg at hp0
      apply hq
      constructor
      · exact Nat.zero_le p
      · show p < 0 * BLOCK_SIZE + 1
        omega
    cases p with
    | zero => omega
    | succ q =>
      rw [List.getD_cons_succ]
      exact replicate_getD_zero 2047 q

end Abogado
